import Mathlib

/-!
Verification development for the speech-to-text session server
(`src/server.js` plus its topic-extractor module).

Text is modelled as `List Nat` of character codes (ASCII code points);
buffers of audio bytes are likewise `List Nat`.  JavaScript `String`
operations used by the server act on these lists; the case mapping and
the whitespace and word-character classes are modelled on their ASCII
fragments, which is the range where the trigger phrases, keywords and
regular expressions of the server operate.
-/

namespace SpeechServer

/-- Character codes of a Lean string literal, used to write concrete inputs. -/
def str (s : String) : List Nat := s.toList.map Char.toNat

/-- ASCII fragment of the JavaScript whitespace class used by trim, split
and the regular expressions in the server. -/
def isWS (c : Nat) : Bool :=
  (c == 9) || (c == 10) || (c == 11) || (c == 12) || (c == 13) || (c == 32)

/-- The punctuation class stripped by the normalizer in `normalizeText`
(`server.js` line 200): the characters of the regex character class. -/
def punctCodes : List Nat :=
  [46, 44, 47, 35, 33, 36, 37, 94, 38, 42, 59, 58, 123, 125, 61, 45, 95, 96, 126, 40, 41]

def isPunct (c : Nat) : Bool := punctCodes.contains c

/-- ASCII case folding, modelling `String.prototype.toLowerCase`. -/
def toLowerNat (c : Nat) : Nat := if 65 ≤ c ∧ c ≤ 90 then c + 32 else c

/-- Whether the first character of a list is whitespace. -/
def headWS (l : List Nat) : Bool := (l.head?.map isWS).getD false

/-- One pass of `replace(/\s\x7b2,\x7d/g, " ")`: every maximal run of two or
more whitespace characters becomes a single space (code 32); a lone
whitespace character is kept as it is.  The boolean flag records whether the
scan currently sits inside a run that has already been replaced. -/
def squeezeGo : Bool → List Nat → List Nat
  | _, [] => []
  | inRun, c :: rest =>
    if isWS c then
      if inRun then squeezeGo true rest
      else if headWS rest then 32 :: squeezeGo true rest
      else c :: squeezeGo false rest
    else c :: squeezeGo false rest

def squeezeWS (l : List Nat) : List Nat := squeezeGo false l

/-- Remove trailing whitespace (the right half of `trim`). -/
def dropTrailingWS : List Nat → List Nat
  | [] => []
  | c :: rest =>
    match dropTrailingWS rest with
    | [] => if isWS c then [] else [c]
    | r => c :: r

/-- JavaScript `trim`. -/
def trimWS (l : List Nat) : List Nat := dropTrailingWS (l.dropWhile (fun c => isWS c))

/-- The function `normalizeText` (`server.js` lines 197-203): lower-case, strip the
punctuation class, collapse runs of two or more whitespace characters to a
single space, trim. -/
def normalizeText (l : List Nat) : List Nat :=
  trimWS (squeezeWS ((l.map toLowerNat).filter (fun c => !isPunct c)))

example : normalizeText (str "  Hello,   World!!  ") = str "hello world" := by decide

/-! Properties of the normalizer used for claim C8. -/

/-- No two adjacent characters are both whitespace. -/
def noTwoWS : List Nat → Bool
  | c :: d :: rest => (!(isWS c && isWS d)) && noTwoWS (d :: rest)
  | _ => true

theorem noTwoWS_cons (c : Nat) (l : List Nat) :
    noTwoWS (c :: l) = ((!(isWS c && headWS l)) && noTwoWS l) := by
  cases l <;> simp [noTwoWS, headWS]

theorem squeezeGo_cons (b : Bool) (c : Nat) (rest : List Nat) :
    squeezeGo b (c :: rest) =
      if isWS c then
        if b then squeezeGo true rest
        else if headWS rest then 32 :: squeezeGo true rest
        else c :: squeezeGo false rest
      else c :: squeezeGo false rest := rfl

theorem dropTrailingWS_cons (c : Nat) (rest : List Nat) :
    dropTrailingWS (c :: rest) =
      match dropTrailingWS rest with
      | [] => if isWS c then [] else [c]
      | r => c :: r := rfl

theorem dropTrailingWS_cons_of_nil {c : Nat} {rest : List Nat}
    (h : dropTrailingWS rest = []) :
    dropTrailingWS (c :: rest) = if isWS c then [] else [c] := by
  rw [dropTrailingWS_cons, h]

theorem dropTrailingWS_cons_of_ne {c r : Nat} {rest rs : List Nat}
    (h : dropTrailingWS rest = r :: rs) :
    dropTrailingWS (c :: rest) = c :: r :: rs := by
  rw [dropTrailingWS_cons, h]

theorem headWS_cons (c : Nat) (l : List Nat) : headWS (c :: l) = isWS c := rfl

theorem toLowerNat_idem (c : Nat) : toLowerNat (toLowerNat c) = toLowerNat c := by
  unfold toLowerNat
  by_cases h : 65 ≤ c ∧ c ≤ 90
  · rw [if_pos h, if_neg (by omega)]
  · rw [if_neg h, if_neg h]

theorem mem_squeezeGo {c : Nat} {b : Bool} {l : List Nat} :
    c ∈ squeezeGo b l → c ∈ l ∨ c = 32 := by
  induction l generalizing b with
  | nil => simp [squeezeGo]
  | cons d rest ih =>
    intro h
    rw [squeezeGo_cons] at h
    split at h
    · split at h
      · rcases ih h with h' | h'
        · exact Or.inl (List.mem_cons_of_mem _ h')
        · exact Or.inr h'
      · split at h
        · rcases List.mem_cons.mp h with h' | h'
          · exact Or.inr h'
          · rcases ih h' with h'' | h''
            · exact Or.inl (List.mem_cons_of_mem _ h'')
            · exact Or.inr h''
        · rcases List.mem_cons.mp h with h' | h'
          · exact Or.inl (h' ▸ List.mem_cons_self _ _)
          · rcases ih h' with h'' | h''
            · exact Or.inl (List.mem_cons_of_mem _ h'')
            · exact Or.inr h''
    · rcases List.mem_cons.mp h with h' | h'
      · exact Or.inl (h' ▸ List.mem_cons_self _ _)
      · rcases ih h' with h'' | h''
        · exact Or.inl (List.mem_cons_of_mem _ h'')
        · exact Or.inr h''

theorem dropTrailingWS_prefixOf (l : List Nat) : dropTrailingWS l <+: l := by
  induction l with
  | nil => exact List.nil_prefix
  | cons c rest ih =>
    cases h : dropTrailingWS rest with
    | nil =>
      rw [dropTrailingWS_cons_of_nil h]
      cases hw : isWS c with
      | true => rw [if_pos rfl]; exact List.nil_prefix
      | false => rw [if_neg (by simp)]; exact ⟨rest, rfl⟩
    | cons r rs =>
      rw [h] at ih
      rw [dropTrailingWS_cons_of_ne h]
      exact List.cons_prefix_cons.mpr ⟨rfl, ih⟩

theorem mem_dropTrailingWS {c : Nat} {l : List Nat} (h : c ∈ dropTrailingWS l) : c ∈ l :=
  (dropTrailingWS_prefixOf l).subset h

theorem mem_dropWhileWS {c : Nat} {l : List Nat} (h : c ∈ l.dropWhile (fun c => isWS c)) :
    c ∈ l :=
  (List.dropWhile_sublist _).subset h

theorem mem_trimWS {c : Nat} {l : List Nat} (h : c ∈ trimWS l) : c ∈ l :=
  mem_dropWhileWS (mem_dropTrailingWS h)

/-- Every character surviving normalization is case-fixed and not punctuation. -/
theorem normalizeText_char {c : Nat} {l : List Nat} (h : c ∈ normalizeText l) :
    toLowerNat c = c ∧ isPunct c = false := by
  rcases mem_squeezeGo (mem_trimWS h) with h' | h'
  · rcases List.mem_filter.mp h' with ⟨hmem, hp⟩
    rcases List.mem_map.mp hmem with ⟨x, _, rfl⟩
    exact ⟨toLowerNat_idem x, by simpa using hp⟩
  · subst h'; exact ⟨by decide, by decide⟩

theorem map_eq_self_of_fixed {f : Nat → Nat} {l : List Nat}
    (h : ∀ c ∈ l, f c = c) : l.map f = l := by
  induction l with
  | nil => rfl
  | cons c rest ih =>
    simp only [List.map_cons, h c (List.mem_cons_self _ _),
      ih (fun x hx => h x (List.mem_cons_of_mem _ hx))]

theorem squeezeGo_true_cons_ws {c : Nat} (h : isWS c = true) (rest : List Nat) :
    squeezeGo true (c :: rest) = squeezeGo true rest := by
  rw [squeezeGo_cons, if_pos h, if_pos rfl]

theorem squeezeGo_false_cons_ws_two {c : Nat} {rest : List Nat}
    (h : isWS c = true) (h2 : headWS rest = true) :
    squeezeGo false (c :: rest) = 32 :: squeezeGo true rest := by
  rw [squeezeGo_cons, if_pos h, if_neg (by simp), if_pos h2]

theorem squeezeGo_false_cons_ws_one {c : Nat} {rest : List Nat}
    (h : isWS c = true) (h2 : headWS rest = false) :
    squeezeGo false (c :: rest) = c :: squeezeGo false rest := by
  rw [squeezeGo_cons, if_pos h, if_neg (by simp), if_neg (by simp [h2])]

theorem squeezeGo_cons_nws {c : Nat} (h : isWS c = false) (b : Bool) (rest : List Nat) :
    squeezeGo b (c :: rest) = c :: squeezeGo false rest := by
  rw [squeezeGo_cons, if_neg (by simp [h])]

theorem headWS_squeezeGo_true (l : List Nat) : headWS (squeezeGo true l) = false := by
  induction l with
  | nil => rfl
  | cons c rest ih =>
    cases h : isWS c with
    | true => rw [squeezeGo_true_cons_ws h]; exact ih
    | false => rw [squeezeGo_cons_nws h, headWS_cons, h]

theorem headWS_squeezeGo_false (l : List Nat) : headWS (squeezeGo false l) = headWS l := by
  cases l with
  | nil => rfl
  | cons c rest =>
    cases h : isWS c with
    | true =>
      cases h2 : headWS rest with
      | true => rw [squeezeGo_false_cons_ws_two h h2, headWS_cons, headWS_cons, h]; rfl
      | false => rw [squeezeGo_false_cons_ws_one h h2, headWS_cons, headWS_cons]
    | false => rw [squeezeGo_cons_nws h, headWS_cons, headWS_cons]

theorem noTwoWS_squeezeGo (l : List Nat) (b : Bool) : noTwoWS (squeezeGo b l) = true := by
  induction l generalizing b with
  | nil => rfl
  | cons c rest ih =>
    cases h : isWS c with
    | true =>
      cases b with
      | true => rw [squeezeGo_true_cons_ws h]; exact ih true
      | false =>
        cases h2 : headWS rest with
        | true =>
          rw [squeezeGo_false_cons_ws_two h h2, noTwoWS_cons,
            headWS_squeezeGo_true, ih true]
          decide
        | false =>
          rw [squeezeGo_false_cons_ws_one h h2, noTwoWS_cons,
            headWS_squeezeGo_false, h2, ih false, h]
          decide
    | false =>
      rw [squeezeGo_cons_nws h, noTwoWS_cons, headWS_squeezeGo_false, ih false, h]
      simp

theorem squeezeGo_false_of_noTwoWS {l : List Nat} (h : noTwoWS l = true) :
    squeezeGo false l = l := by
  induction l with
  | nil => rfl
  | cons c rest ih =>
    rw [noTwoWS_cons] at h
    rcases Bool.and_eq_true_iff.mp h with ⟨h1, h2⟩
    cases hc : isWS c with
    | true =>
      have hrest : headWS rest = false := by
        cases hw : headWS rest
        · rfl
        · rw [hc, hw] at h1; simp at h1
      rw [squeezeGo_false_cons_ws_one hc hrest, ih h2]
    | false => rw [squeezeGo_cons_nws hc, ih h2]

theorem noTwoWS_dropWhile {l : List Nat} (h : noTwoWS l = true) :
    noTwoWS (l.dropWhile (fun c => isWS c)) = true := by
  induction l with
  | nil => simpa using h
  | cons c rest ih =>
    rw [noTwoWS_cons] at h
    rcases Bool.and_eq_true_iff.mp h with ⟨h1, h2⟩
    rw [List.dropWhile_cons]
    split
    · exact ih h2
    · rw [noTwoWS_cons]
      exact Bool.and_eq_true_iff.mpr ⟨h1, h2⟩

theorem noTwoWS_of_isPrefix {l m : List Nat} (hp : l <+: m) (h : noTwoWS m = true) :
    noTwoWS l = true := by
  induction l generalizing m with
  | nil => rfl
  | cons c rest ih =>
    rcases hp with ⟨t, rfl⟩
    rw [List.cons_append] at h
    rw [noTwoWS_cons] at h ⊢
    rcases Bool.and_eq_true_iff.mp h with ⟨h1, h2⟩
    refine Bool.and_eq_true_iff.mpr ⟨?_, ih ⟨t, rfl⟩ h2⟩
    cases rest with
    | nil => simp [headWS]
    | cons d rs => simpa [headWS] using h1

theorem dropTrailingWS_idem (l : List Nat) :
    dropTrailingWS (dropTrailingWS l) = dropTrailingWS l := by
  induction l with
  | nil => rfl
  | cons c rest ih =>
    cases h : dropTrailingWS rest with
    | nil =>
      rw [dropTrailingWS_cons_of_nil h]
      cases hw : isWS c with
      | true => rw [if_pos rfl]; rfl
      | false =>
        rw [if_neg (by simp)]
        rw [show dropTrailingWS [c] = if isWS c then [] else [c] from
          dropTrailingWS_cons_of_nil rfl, hw, if_neg (by simp)]
    | cons r rs =>
      rw [h] at ih
      rw [dropTrailingWS_cons_of_ne h, dropTrailingWS_cons_of_ne ih]

theorem headWS_dropTrailingWS {l : List Nat} (h : headWS l = false) :
    headWS (dropTrailingWS l) = false := by
  cases hd : dropTrailingWS l with
  | nil => rfl
  | cons c rest =>
    have hp := dropTrailingWS_prefixOf l
    rw [hd] at hp
    rcases hp with ⟨t, ht⟩
    rw [← ht] at h
    simpa [headWS] using h

theorem headWS_dropWhileWS (l : List Nat) :
    headWS (l.dropWhile (fun c => isWS c)) = false := by
  induction l with
  | nil => rfl
  | cons c rest ih =>
    rw [List.dropWhile_cons]
    split
    · exact ih
    · simp_all [headWS]

theorem dropWhileWS_eq_self {l : List Nat} (h : headWS l = false) :
    l.dropWhile (fun c => isWS c) = l := by
  cases l with
  | nil => rfl
  | cons c rest =>
    have h' : isWS c = false := h
    rw [List.dropWhile_cons, if_neg (by simp [h'])]

theorem headWS_trimWS (l : List Nat) : headWS (trimWS l) = false :=
  headWS_dropTrailingWS (headWS_dropWhileWS l)

theorem trimWS_idem (l : List Nat) : trimWS (trimWS l) = trimWS l := by
  unfold trimWS
  rw [dropWhileWS_eq_self (headWS_dropTrailingWS (headWS_dropWhileWS l)),
    dropTrailingWS_idem]

theorem noTwoWS_trimWS {l : List Nat} (h : noTwoWS l = true) :
    noTwoWS (trimWS l) = true :=
  noTwoWS_of_isPrefix (dropTrailingWS_prefixOf _) (noTwoWS_dropWhile h)

theorem filter_eq_self_of_holds {p : Nat → Bool} {l : List Nat}
    (h : ∀ c ∈ l, p c = true) : l.filter p = l := by
  induction l with
  | nil => rfl
  | cons c rest ih =>
    rw [List.filter_cons, if_pos (h c (List.mem_cons_self _ _)),
      ih (fun x hx => h x (List.mem_cons_of_mem _ hx))]

theorem normalizeText_fixes_normalized (l : List Nat) :
    normalizeText (normalizeText l) = normalizeText l := by
  have hnt : noTwoWS (normalizeText l) = true := by
    rw [normalizeText]
    exact noTwoWS_trimWS (noTwoWS_squeezeGo _ false)
  have hhead : headWS (normalizeText l) = false := by
    rw [normalizeText]; exact headWS_trimWS _
  have htail : dropTrailingWS (normalizeText l) = normalizeText l := by
    rw [normalizeText, trimWS, dropTrailingWS_idem]
  conv_lhs => rw [normalizeText]
  rw [map_eq_self_of_fixed (fun c hc => (normalizeText_char hc).1),
    filter_eq_self_of_holds (fun c hc => by simp [(normalizeText_char hc).2]),
    show squeezeWS (normalizeText l) = normalizeText l from
      squeezeGo_false_of_noTwoWS hnt,
    trimWS, dropWhileWS_eq_self hhead, htail]

theorem lower_fixes_punct_ws {c : Nat} (h : isPunct c = true ∨ isWS c = true) :
    toLowerNat c = c := by
  unfold toLowerNat
  split
  · rcases h with h | h
    · simp only [isPunct, punctCodes, List.contains, List.elem_eq_mem,
        decide_eq_true_eq, List.mem_cons, List.not_mem_nil, or_false] at h
      omega
    · simp only [isWS, Bool.or_eq_true, beq_iff_eq] at h
      omega
  · rfl

theorem dropWhileWS_all_ws {l : List Nat} (h : ∀ c ∈ l, isWS c = true) :
    l.dropWhile (fun c => isWS c) = [] := by
  induction l with
  | nil => rfl
  | cons c rest ih =>
    rw [List.dropWhile_cons, if_pos (by simpa using h c (List.mem_cons_self _ _))]
    exact ih (fun x hx => h x (List.mem_cons_of_mem _ hx))

theorem normalizeText_punct_ws_only {l : List Nat}
    (h : ∀ c ∈ l, isPunct c = true ∨ isWS c = true) : normalizeText l = [] := by
  rw [normalizeText, map_eq_self_of_fixed (fun c hc => lower_fixes_punct_ws (h c hc))]
  have hws : ∀ c ∈ (l.filter (fun c => !isPunct c)), isWS c = true := by
    intro c hc
    rcases List.mem_filter.mp hc with ⟨hmem, hp⟩
    rcases h c hmem with h' | h'
    · simp [h'] at hp
    · exact h'
  have hws2 : ∀ c ∈ squeezeWS (l.filter (fun c => !isPunct c)), isWS c = true := by
    intro c hc
    rcases mem_squeezeGo hc with h' | h'
    · exact hws c h'
    · subst h'; decide
  rw [trimWS, dropWhileWS_all_ws hws2]
  rfl

/-- Claim C8: the text normalizer is idempotent, and any input consisting only
of characters in the stripped punctuation class and whitespace normalizes to
the empty string. -/
theorem C8_normalizeText_idem_and_punct_only :
    (∀ l : List Nat, normalizeText (normalizeText l) = normalizeText l) ∧
    (∀ l : List Nat, (∀ c ∈ l, isPunct c = true ∨ isWS c = true) →
      normalizeText l = []) :=
  ⟨normalizeText_fixes_normalized, fun _ h => normalizeText_punct_ws_only h⟩

/-- Witness for C8 at concrete inputs. -/
theorem C8_witness :
    normalizeText (normalizeText (str "  Ab,,C   d!  ")) =
      normalizeText (str "  Ab,,C   d!  ") ∧
    ((∀ c ∈ str ".,;:  !!()-  ", isPunct c = true ∨ isWS c = true) ∧
      normalizeText (str ".,;:  !!()-  ") = []) :=
  ⟨C8_normalizeText_idem_and_punct_only.1 _,
    by decide,
    C8_normalizeText_idem_and_punct_only.2 _ (by decide)⟩

/-! Audio Splicer: `combineWavBuffers` (`server.js` lines 54-106). -/

/-- Little-endian byte encoding of a 16-bit write (`writeUInt16LE`). -/
def u16LE (n : Nat) : List Nat := [n % 256, n / 256 % 256]

/-- Little-endian byte encoding of a 32-bit write (`writeUInt32LE`). -/
def u32LE (n : Nat) : List Nat :=
  [n % 256, n / 256 % 256, n / 65536 % 256, n / 16777216 % 256]

/-- Node `readUInt16LE` at an offset; out-of-range bytes read as 0 in the model
(the separate in-bounds statement of C4 shows the server never relies on
this default). -/
def readU16LE (b : List Nat) (off : Nat) : Nat :=
  b.getD off 0 + 256 * b.getD (off + 1) 0

/-- Node `readUInt32LE` at an offset. -/
def readU32LE (b : List Nat) (off : Nat) : Nat :=
  b.getD off 0 + 256 * b.getD (off + 1) 0 + 65536 * b.getD (off + 2) 0 +
    16777216 * b.getD (off + 3) 0

def asciiRIFF : List Nat := [82, 73, 70, 70]
def asciiWAVE : List Nat := [87, 65, 86, 69]
def asciiFmtSp : List Nat := [102, 109, 116, 32]
def asciiDATA : List Nat := [100, 97, 116, 97]

/-- The canonical 44-byte WAV header written by `combineWavBuffers`
(`server.js` lines 85-100). -/
def wavHeader (numChannels sampleRate bitsPerSample payloadLen : Nat) : List Nat :=
  asciiRIFF ++ u32LE (36 + payloadLen) ++ asciiWAVE ++ asciiFmtSp ++
    u32LE 16 ++ u16LE 1 ++ u16LE numChannels ++ u32LE sampleRate ++
    u32LE (sampleRate * numChannels * bitsPerSample / 8) ++
    u16LE (numChannels * bitsPerSample / 8) ++ u16LE bitsPerSample ++
    asciiDATA ++ u32LE payloadLen

/-- The splicer `combineWavBuffers` (`server.js` lines 54-106): zero buffers give an empty
buffer; one buffer is returned unchanged; otherwise the PCM payloads (bytes
after offset 44, empty for buffers of at most 44 bytes) are concatenated in
order behind a fresh canonical header whose format fields are read from the
first buffer. -/
def combineWavBuffers (wavBuffers : List (List Nat)) : List Nat :=
  match wavBuffers with
  | [] => []
  | [b] => b
  | first :: _ :: _ =>
    let pcmDataBuffers := wavBuffers.map
      (fun buffer => if buffer.length ≤ 44 then [] else buffer.drop 44)
    let combinedPCM := (pcmDataBuffers.filter (fun b => b.length > 0)).flatten
    let numChannels := readU16LE first 22
    let sampleRate := readU32LE first 24
    let bitsPerSample := readU16LE first 34
    wavHeader numChannels sampleRate bitsPerSample combinedPCM.length ++ combinedPCM

/-- A buffer with the canonical 44-byte WAV header layout: a header exactly as
the splicer writes it, followed by the payload whose length the header records. -/
def isWavBuffer (b : List Nat) : Prop :=
  ∃ nc sr bps payload, b = wavHeader nc sr bps payload.length ++ payload

theorem wavHeader_length (nc sr bps n : Nat) : (wavHeader nc sr bps n).length = 44 := rfl

theorem flatten_filter_pos (l : List (List Nat)) :
    (l.filter (fun b => b.length > 0)).flatten = l.flatten := by
  induction l with
  | nil => rfl
  | cons b rest ih =>
    rw [List.filter_cons]
    by_cases h : b.length > 0
    · rw [if_pos (by simpa using h)]
      simp [ih]
    · have hb : b = [] := List.length_eq_zero.mp (by omega)
      subst hb
      rw [if_neg (by simp), ih, List.flatten_cons, List.nil_append]

theorem drop_of_short_eq (b : List Nat) :
    (if b.length ≤ 44 then [] else b.drop 44) = b.drop 44 := by
  by_cases h : b.length ≤ 44
  · rw [if_pos h, eq_comm, List.drop_eq_nil_iff]
    omega
  · rw [if_neg h]

/-- For at least two buffers, the output is the fresh header followed by the
concatenated payloads. -/
theorem combineWavBuffers_two (first second : List Nat) (rest : List (List Nat)) :
    combineWavBuffers (first :: second :: rest) =
      wavHeader (readU16LE first 22) (readU32LE first 24) (readU16LE first 34)
        (((first :: second :: rest).map (fun b => b.drop 44)).flatten.length) ++
        ((first :: second :: rest).map (fun b => b.drop 44)).flatten := by
  simp only [combineWavBuffers]
  rw [List.map_congr_left (fun b _ => drop_of_short_eq b), flatten_filter_pos]

/-- Claim C3: combining zero fragments yields a zero-length buffer; one
fragment is returned byte-identical; for two or more fragments the output
payload (bytes after offset 44) is the concatenation, in arrival order, of
the bytes of each fragment after offset 44, and its length is the sum of
(length - 44) over the fragments (truncated subtraction: fragments of length
at most 44 contribute nothing). -/
theorem C3_combineWavBuffers_payload :
    combineWavBuffers [] = [] ∧
    (∀ b : List Nat, combineWavBuffers [b] = b) ∧
    (∀ bs : List (List Nat), 2 ≤ bs.length →
      (combineWavBuffers bs).drop 44 = (bs.map (fun b => b.drop 44)).flatten ∧
      ((combineWavBuffers bs).drop 44).length =
        (bs.map (fun b => b.length - 44)).sum) := by
  refine ⟨rfl, fun b => rfl, fun bs hbs => ?_⟩
  match bs, hbs with
  | first :: second :: rest, _ =>
    have hdrop : ∀ (hd pcm : List Nat), hd.length = 44 → (hd ++ pcm).drop 44 = pcm := by
      intro hd pcm hl
      rw [← hl, List.drop_left]
    rw [combineWavBuffers_two, hdrop _ _ (wavHeader_length _ _ _ _)]
    refine ⟨rfl, ?_⟩
    rw [List.length_flatten, List.map_map]
    congr 1
    apply List.map_congr_left
    intro b _
    simp [List.length_drop]

/-- Witness for C3 at concrete inputs (a 46-byte and a 44-byte fragment). -/
theorem C3_witness :
    2 ≤ ([List.replicate 45 7, List.replicate 44 8] : List (List Nat)).length ∧
    (combineWavBuffers [List.replicate 45 7, List.replicate 44 8]).drop 44 =
      (([List.replicate 45 7, List.replicate 44 8] : List (List Nat)).map
        (fun b => b.drop 44)).flatten ∧
    ((combineWavBuffers [List.replicate 45 7, List.replicate 44 8]).drop 44).length =
      (([List.replicate 45 7, List.replicate 44 8] : List (List Nat)).map
        (fun b => b.length - 44)).sum :=
  ⟨by decide, C3_combineWavBuffers_payload.2.2 _ (by decide)⟩

/-- The amended C4: for a NON-EMPTY list of canonical WAV buffers the output
has the canonical header, and the header fields are read from offsets 22-27
and 34-35, all inside the first buffer. -/
theorem C4_combineWavBuffers_header (bs : List (List Nat)) (hne : bs ≠ [])
    (hwav : ∀ b ∈ bs, isWavBuffer b) :
    isWavBuffer (combineWavBuffers bs) ∧
    (∀ off ∈ [22, 23, 24, 25, 26, 27, 34, 35], off < (bs.headI).length) ∧
    (∀ first second rest2, bs = first :: second :: rest2 →
      ∃ payload, combineWavBuffers bs =
        wavHeader (readU16LE first 22) (readU32LE first 24) (readU16LE first 34)
          payload.length ++ payload) := by
  have hfirst : isWavBuffer bs.headI := by
    cases bs with
    | nil => exact absurd rfl hne
    | cons b rest => exact hwav b (List.mem_cons_self _ _)
  have hlen : 44 ≤ bs.headI.length := by
    rcases hfirst with ⟨nc, sr, bps, payload, hp⟩
    rw [hp, List.length_append, wavHeader_length]
    omega
  refine ⟨?_, by intro off hoff; fin_cases hoff <;> omega, ?_⟩
  · cases bs with
    | nil => exact absurd rfl hne
    | cons first rest =>
      cases rest with
      | nil => simpa [combineWavBuffers] using hwav first (List.mem_cons_self _ _)
      | cons second rest2 =>
        rw [combineWavBuffers_two]
        exact ⟨_, _, _, _, rfl⟩
  · rintro first second rest2 rfl
    exact ⟨_, combineWavBuffers_two first second rest2⟩

/-- Witness for the amended C4 at a concrete input: two canonical 44-byte
headers with empty payload; the combined payload length is 0 and the header
is still present. -/
theorem C4_witness :
    (([wavHeader 1 8000 16 0, wavHeader 1 8000 16 0] : List (List Nat)) ≠ [] ∧
      ∀ b ∈ ([wavHeader 1 8000 16 0, wavHeader 1 8000 16 0] : List (List Nat)),
        isWavBuffer b) ∧
    isWavBuffer (combineWavBuffers [wavHeader 1 8000 16 0, wavHeader 1 8000 16 0]) ∧
    (∀ off ∈ [22, 23, 24, 25, 26, 27, 34, 35],
      off < (([wavHeader 1 8000 16 0, wavHeader 1 8000 16 0] :
        List (List Nat)).headI).length) ∧
    ∃ payload, combineWavBuffers [wavHeader 1 8000 16 0, wavHeader 1 8000 16 0] =
      wavHeader (readU16LE (wavHeader 1 8000 16 0) 22)
        (readU32LE (wavHeader 1 8000 16 0) 24)
        (readU16LE (wavHeader 1 8000 16 0) 34) payload.length ++ payload := by
  have hw : ∀ b ∈ ([wavHeader 1 8000 16 0, wavHeader 1 8000 16 0] : List (List Nat)),
      isWavBuffer b := by
    intro b hb
    rcases List.mem_cons.mp hb with rfl | hb
    · exact ⟨1, 8000, 16, [], by simp⟩
    · rcases List.mem_cons.mp hb with rfl | hb
      · exact ⟨1, 8000, 16, [], by simp⟩
      · simp at hb
  refine ⟨⟨by simp, hw⟩, ?_⟩
  have h := C4_combineWavBuffers_header _ (by simp) hw
  exact ⟨h.1, h.2.1, h.2.2 _ _ _ rfl⟩

/-- Counterexample to C4 as stated: the empty list of fragments is an input
list of WAV buffers, but the splicer returns the zero-length buffer, which
has no header. -/
theorem C4_counterexample :
    combineWavBuffers [] = [] ∧ ¬ isWavBuffer ([] : List Nat) := by
  refine ⟨rfl, ?_⟩
  rintro ⟨nc, sr, bps, payload, hp⟩
  have := congrArg List.length hp
  rw [List.length_append, wavHeader_length] at this
  simp at this
  omega

/-! Trigger Detector extraction: `extractTextBetweenKeywords`
(`server.js` lines 205-261). -/

/-- ASCII letter class of the cleanup regex `[a-zA-Z]`. -/
def isAlphaNat (c : Nat) : Bool := (65 ≤ c && c ≤ 90) || (97 ≤ c && c ≤ 122)

/-- The cleanup step of the extractor: drop a leading single letter followed by a
run of whitespace. -/
def stripLeadArtifact : List Nat → List Nat
  | c :: d :: rest =>
    if isAlphaNat c && isWS d then (d :: rest).dropWhile (fun x => isWS x)
    else c :: d :: rest
  | l => l

/-- JavaScript `substring(a, b)`: clamp to the list and swap the ends when
given in the wrong order. -/
def jsSubstring (l : List Nat) (a b : Nat) : List Nat :=
  (l.take (max a b)).drop (min a b)

/-- First index at which `needle` occurs in the remaining hay, offset by `i`
(JavaScript `indexOf`). -/
def firstIdxAux (needle : List Nat) : List Nat → Nat → Option Nat
  | [], i => if needle.isPrefixOf [] then some i else none
  | c :: rest, i =>
    if needle.isPrefixOf (c :: rest) then some i else firstIdxAux needle rest (i + 1)

def firstIdxOf? (hay needle : List Nat) : Option Nat := firstIdxAux needle hay 0

/-- JavaScript `lastIndexOf`: the greatest index at which `needle` occurs. -/
def lastIdxOf? (hay needle : List Nat) : Option Nat :=
  ((List.range (hay.length + 1)).filter
    (fun i => needle.isPrefixOf (hay.drop i))).getLast?

/-- The extractor `extractTextBetweenKeywords` (`server.js` lines 205-261).  Indices are
located in the NORMALIZED text (with the JavaScript -1 sentinel for "not
found") and then applied to the original text, exactly as the source does. -/
def extractTextBetweenKeywords (fullText startKeyword endKeyword : List Nat) :
    List Nat :=
  if (trimWS fullText).length = 0 then []
  else
    let normalizedText := normalizeText fullText
    let normalizedStart := normalizeText startKeyword
    let normalizedEnd := normalizeText endKeyword
    let startIndex : Int :=
      if normalizedStart ≠ [] then
        match firstIdxOf? normalizedText normalizedStart with
        | some i => (i : Int)
        | none => -1
      else -1
    let endIndex : Int :=
      if normalizedEnd ≠ [] then
        match lastIdxOf? normalizedText normalizedEnd with
        | some i => (i : Int)
        | none => -1
      else -1
    if startIndex ≠ -1 ∧ endIndex ≠ -1 ∧ endIndex > startIndex ∧
        endIndex ≤ startIndex + normalizedStart.length + 1 then
      []
    else if startIndex ≠ -1 ∧ (endIndex = -1 ∨ endIndex ≤ startIndex) then
      stripLeadArtifact (trimWS (fullText.drop (startIndex.toNat + startKeyword.length)))
    else if endIndex ≠ -1 ∧ startIndex = -1 then
      trimWS (fullText.take endIndex.toNat)
    else if startIndex ≠ -1 ∧ endIndex > startIndex then
      stripLeadArtifact
        (trimWS (jsSubstring fullText (startIndex.toNat + startKeyword.length) endIndex.toNat))
    else
      trimWS fullText

/-- The reading of claim C7 (spec case 5): the slice of the ORIGINAL text
strictly between the first occurrence of the start phrase and the last
occurrence of the end phrase in that same original text, trimmed, with the
leading-letter cleanup. -/
def extractBetweenSpec (fullText startKeyword endKeyword : List Nat) : List Nat :=
  match firstIdxOf? fullText startKeyword, lastIdxOf? fullText endKeyword with
  | some si, some ei =>
    stripLeadArtifact (trimWS (jsSubstring fullText (si + startKeyword.length) ei))
  | _, _ => []

theorem headWS_normalizeText (l : List Nat) : headWS (normalizeText l) = false := by
  rw [normalizeText]; exact headWS_trimWS _

theorem trimWS_normalizeText (l : List Nat) : trimWS (normalizeText l) = normalizeText l := by
  conv_lhs => rw [normalizeText]
  rw [trimWS_idem, normalizeText]

theorem firstIdxAux_found {needle hay : List Nat} {i j : Nat}
    (h : firstIdxAux needle hay i = some j) :
    i ≤ j ∧ needle.isPrefixOf (hay.drop (j - i)) = true := by
  induction hay generalizing i with
  | nil =>
    unfold firstIdxAux at h
    split at h
    · obtain rfl : i = j := Option.some.inj h
      simp_all
    · exact absurd h (by simp)
  | cons c rest ih =>
    unfold firstIdxAux at h
    split at h
    · obtain rfl : i = j := Option.some.inj h
      simp_all
    · rcases ih h with ⟨h1, h2⟩
      refine ⟨by omega, ?_⟩
      have : j - i = (j - (i + 1)) + 1 := by omega
      rw [this, List.drop_succ_cons] at *
      exact h2

/-- Claim C7, amended: when the text and both phrases are already in
normalized form (normalization fixes them) and both phrases are found in
valid, non-adjacent order, the function returns the slice of the original
text strictly between the two occurrences, trimmed and cleaned.  (Stated via
`extractBetweenSpec`, whose indices are located in the original text.) -/
theorem C7_extract_between_normalized
    (ft sk ek : List Nat) (si ei : Nat)
    (hft : normalizeText ft = ft) (hsk : normalizeText sk = sk)
    (hek : normalizeText ek = ek)
    (hskne : sk ≠ []) (hekne : ek ≠ [])
    (hsi : firstIdxOf? ft sk = some si) (hei : lastIdxOf? ft ek = some ei)
    (horder : si + sk.length + 1 < ei) :
    extractTextBetweenKeywords ft sk ek =
      stripLeadArtifact (trimWS (jsSubstring ft (si + sk.length) ei)) ∧
    extractTextBetweenKeywords ft sk ek = extractBetweenSpec ft sk ek := by
  have hftne : ft ≠ [] := by
    rcases firstIdxAux_found hsi with ⟨-, hpre⟩
    intro hnil
    subst hnil
    rcases List.isPrefixOf_iff_prefix.mp hpre with ⟨t, ht⟩
    simp at ht
    exact hskne (by simp [ht.1])
  have hguard : ¬ (trimWS ft).length = 0 := by
    rw [← hft, trimWS_normalizeText, hft]
    intro h
    exact hftne (List.length_eq_zero.mp h)
  have hmain : extractTextBetweenKeywords ft sk ek =
      stripLeadArtifact (trimWS (jsSubstring ft (si + sk.length) ei)) := by
    unfold extractTextBetweenKeywords
    rw [if_neg hguard]
    simp only [hft, hsk, hek, hsi, hei, if_pos hskne, if_pos hekne]
    rw [if_neg (by omega), if_neg (by omega), if_neg (by omega), if_pos (by omega)]
    simp [Int.toNat_natCast]
  refine ⟨hmain, ?_⟩
  rw [hmain, extractBetweenSpec, hsi, hei]

/-- Witness for the amended C7 at concrete input: the normalized text
"magic word apple magic stop" with phrases "magic word" and "magic stop"
extracts "apple". -/
theorem C7_witness :
    (normalizeText (str "magic word apple magic stop") =
        str "magic word apple magic stop" ∧
      normalizeText (str "magic word") = str "magic word" ∧
      normalizeText (str "magic stop") = str "magic stop" ∧
      firstIdxOf? (str "magic word apple magic stop") (str "magic word") = some 0 ∧
      lastIdxOf? (str "magic word apple magic stop") (str "magic stop") = some 17 ∧
      0 + (str "magic word").length + 1 < 17) ∧
    extractTextBetweenKeywords (str "magic word apple magic stop")
        (str "magic word") (str "magic stop") =
      extractBetweenSpec (str "magic word apple magic stop")
        (str "magic word") (str "magic stop") ∧
    extractBetweenSpec (str "magic word apple magic stop")
        (str "magic word") (str "magic stop") = str "apple" :=
  ⟨⟨by decide, by decide, by decide, by decide, by decide, by decide⟩,
    (C7_extract_between_normalized _ _ _ 0 17 (by decide) (by decide) (by decide)
      (by decide) (by decide) (by decide) (by decide) (by decide)).2,
    by decide⟩

/-- Counterexample to C7 as stated: with punctuation before the start phrase
the normalized index is offset against the original text, so the returned
slice is NOT the text between the phrase occurrences of the original text.
Both phrases occur literally in the original, strictly between them is
" apple " (trimming and cleanup give "apple"), yet the function returns
"ord app". -/
theorem C7_counterexample :
    extractTextBetweenKeywords (str "!! magic word apple magic stop")
        (str "magic word") (str "magic stop") = str "ord app" ∧
    extractBetweenSpec (str "!! magic word apple magic stop")
        (str "magic word") (str "magic stop") = str "apple" ∧
    str "ord app" ≠ str "apple" :=
  ⟨by decide, by decide, by decide⟩

/-! Session Audio Buffer: the per-session state touched by the
`/api/process-audio-chunk` handler (`server.js` lines 557-790) and the
`manual_end` control handler (`server.js` lines 883-938). -/

/-- The per-session entry of the `audioChunks` map (`server.js` lines
609-617): ordered fragment buffers, recording flag, trigger phrases and
language. -/
structure AudioSession where
  chunks : List (List Nat)
  isRecording : Bool
  startKeyword : List Nat
  endKeyword : List Nat
  language : List Nat
  deriving Repr, DecidableEq

/-- Substring containment (JavaScript `String.prototype.includes`). -/
def containsSub (hay needle : List Nat) : Bool :=
  (List.range (hay.length + 1)).any (fun i => needle.isPrefixOf (hay.drop i))

/-- Outcome of a `manual_end` message, beside the updated buffer: either a
diarization run on the combined audio, or a `no_recording_error` with the
given error code. -/
inductive ManualEndOutcome where
  | processed (combinedAudio : List Nat)
  | errorSent (errorCode : String)
  deriving Repr, DecidableEq

/-- The `manual_end` handler (`server.js` lines 883-938): when the session
buffer exists and holds fragments, recording stops, the fragments are
combined and handed to the diarization pipeline, and the sequence is
cleared; otherwise a `no_recording_error` is sent whose code depends on
whether recording was in progress.  Note the recording flag is only cleared
in the non-empty branch, exactly as in the source. -/
def manualEnd (buf : Option AudioSession) : Option AudioSession × ManualEndOutcome :=
  match buf with
  | some s =>
    if s.chunks.length > 0 then
      (some { s with isRecording := false, chunks := [] },
        ManualEndOutcome.processed (combineWavBuffers s.chunks))
    else
      (some s, ManualEndOutcome.errorSent
        (if s.isRecording then "no_chunks_captured" else "magic_not_started"))
  | none => (none, ManualEndOutcome.errorSent "magic_not_started")

/-- Result of one `/api/process-audio-chunk` request: updated session entry,
the JSON response fields `keywordDetected`/`keyword`, whether a diarization
run was launched (and on which combined audio), whether a
`no_recording_error` was sent, and whether the transcript was forwarded to
the spectator. -/
structure ChunkResult where
  newBuf : AudioSession
  keywordDetected : Bool
  keyword : Option String
  pipelineAudio : Option (List Nat)
  errorCode : Option String
  spectatorForwarded : Bool
  deriving Repr, DecidableEq

/-- The keyword-detection and buffering logic of the
`/api/process-audio-chunk` handler (`server.js` lines 609-779), given the
transcript already returned by the transcription service.  `isMagicActive`
is the string field of the request ("true"/"false"). -/
def processAudioChunk (buf : Option AudioSession) (audioBuffer transcript
    startKeyword endKeyword : List Nat) (isMagicActive : String)
    (language : List Nat) : ChunkResult :=
  let s0 : AudioSession := match buf with
    | none =>
      { chunks := [], isRecording := false, startKeyword := startKeyword,
        endKeyword := endKeyword, language := language }
    | some s => s
  let s1 : AudioSession :=
    { s0 with
      startKeyword := if startKeyword ≠ [] then startKeyword else s0.startKeyword,
      endKeyword := if endKeyword ≠ [] then endKeyword else s0.endKeyword,
      language := if language ≠ [] then language else s0.language }
  let normalizedTranscript := normalizeText transcript
  let normalizedStartKeyword := normalizeText startKeyword
  let normalizedEndKeyword := normalizeText endKeyword
  let hasStartKeyword :=
    (!normalizedStartKeyword.isEmpty) &&
      containsSub normalizedTranscript normalizedStartKeyword
  let hasEndKeyword :=
    (!normalizedEndKeyword.isEmpty) &&
      containsSub normalizedTranscript normalizedEndKeyword
  if hasStartKeyword && (isMagicActive == "false") then
    { newBuf := { s1 with chunks := [audioBuffer], isRecording := true },
      keywordDetected := true, keyword := some "start", pipelineAudio := none,
      errorCode := none, spectatorForwarded := false }
  else
    let s2 := if s1.isRecording && !hasEndKeyword then
        { s1 with chunks := s1.chunks ++ [audioBuffer] }
      else s1
    if hasEndKeyword && (isMagicActive == "true") then
      let s3 := { s2 with isRecording := false, chunks := s2.chunks ++ [audioBuffer] }
      if s3.chunks.length > 0 then
        { newBuf := { s3 with chunks := [] }, keywordDetected := true,
          keyword := some "end",
          pipelineAudio := some (combineWavBuffers s3.chunks),
          errorCode := none, spectatorForwarded := false }
      else
        { newBuf := s3, keywordDetected := true, keyword := some "end",
          pipelineAudio := none, errorCode := some "no_chunks_captured",
          spectatorForwarded := false }
    else
      { newBuf := s2, keywordDetected := false, keyword := none,
        pipelineAudio := none, errorCode := none,
        spectatorForwarded := (isMagicActive == "true") && !transcript.isEmpty }

/-- Claim C5, amended: `manual_end` moves the session to Idle and clears the
sequence only when the fragment sequence is non-empty, handing the combined
audio to the pipeline; when the sequence is empty the recording flag is left
unchanged and a nothing-captured error is sent whose code distinguishes
recording-in-progress (`no_chunks_captured`) from never-started
(`magic_not_started`, also sent when no session entry exists). -/
theorem C5_manualEnd_behaviour (buf : Option AudioSession) :
    (∀ s, buf = some s → s.chunks ≠ [] →
      manualEnd buf =
        (some { s with isRecording := false, chunks := [] },
          ManualEndOutcome.processed (combineWavBuffers s.chunks))) ∧
    (∀ s, buf = some s → s.chunks = [] →
      manualEnd buf =
        (some s, ManualEndOutcome.errorSent
          (if s.isRecording then "no_chunks_captured" else "magic_not_started"))) ∧
    (buf = none → manualEnd buf = (none, ManualEndOutcome.errorSent "magic_not_started")) := by
  refine ⟨?_, ?_, ?_⟩
  · rintro s rfl hne
    rw [manualEnd, if_pos (by simpa [List.length_pos] using hne)]
  · rintro s rfl hnil
    rw [manualEnd, if_neg (by simp [hnil])]
  · rintro rfl
    rfl

/-- Witness for the amended C5 at concrete inputs. -/
theorem C5_witness :
    (manualEnd (some ⟨[[1, 2]], true, [], [], []⟩) =
      (some ⟨[], false, [], [], []⟩, ManualEndOutcome.processed [1, 2])) ∧
    (manualEnd (some ⟨[], true, [], [], []⟩) =
      (some ⟨[], true, [], [], []⟩,
        ManualEndOutcome.errorSent "no_chunks_captured")) ∧
    manualEnd none = (none, ManualEndOutcome.errorSent "magic_not_started") :=
  ⟨by
      have := (C5_manualEnd_behaviour (some ⟨[[1, 2]], true, [], [], []⟩)).1
        _ rfl (by decide)
      simpa using this,
    by
      have := (C5_manualEnd_behaviour (some ⟨[], true, [], [], []⟩)).2.1 _ rfl rfl
      simpa using this,
    (C5_manualEnd_behaviour none).2.2 rfl⟩

/-- Counterexample to C5 as stated: a `manual_end` with an empty fragment
sequence while recording is in progress does NOT force the state to Idle;
the recording flag stays true (the source only clears it in the non-empty
branch). -/
theorem C5_counterexample :
    ((manualEnd (some ⟨[], true, [], [], []⟩)).1.map AudioSession.isRecording) =
      some true := by decide

/-- Claim C6: a fragment whose transcript contains the start phrase while
`isMagicActive` is "false" resets the fragment sequence to exactly that
fragment and sets the state to Recording. -/
theorem C6_start_resets_chunks (buf : Option AudioSession)
    (audioBuffer transcript sk ek lang : List Nat)
    (hstart : ((!(normalizeText sk).isEmpty) &&
      containsSub (normalizeText transcript) (normalizeText sk)) = true) :
    (processAudioChunk buf audioBuffer transcript sk ek "false" lang).newBuf.chunks =
      [audioBuffer] ∧
    (processAudioChunk buf audioBuffer transcript sk ek "false" lang).newBuf.isRecording =
      true := by
  unfold processAudioChunk
  rw [if_pos (by simp [hstart])]
  exact ⟨rfl, rfl⟩

/-- Witness for C6 at a concrete input: prior unflushed fragments are
discarded and replaced by the start fragment. -/
theorem C6_witness :
    ((!(normalizeText (str "magic word")).isEmpty) &&
      containsSub (normalizeText (str "Okay, MAGIC word now!"))
        (normalizeText (str "magic word"))) = true ∧
    (processAudioChunk (some ⟨[[9, 9], [8, 8]], false, [], [], []⟩)
        [1, 2, 3] (str "Okay, MAGIC word now!") (str "magic word")
        (str "magic stop") "false" (str "en")).newBuf.chunks = [[1, 2, 3]] ∧
    (processAudioChunk (some ⟨[[9, 9], [8, 8]], false, [], [], []⟩)
        [1, 2, 3] (str "Okay, MAGIC word now!") (str "magic word")
        (str "magic stop") "false" (str "en")).newBuf.isRecording = true :=
  ⟨by decide,
    (C6_start_resets_chunks _ _ _ _ _ _ (by decide)).1,
    (C6_start_resets_chunks _ _ _ _ _ _ (by decide)).2⟩

/-- Claim C10: a fragment arriving while Recording whose transcript contains
the end phrase but with `isMagicActive` "false" (and no start trigger) is
silently dropped: the fragment sequence and the recording flag are
unchanged, no pipeline run starts, no error is sent, nothing is forwarded to
the spectator, and the response reports `keywordDetected` false. -/
theorem C10_end_inactive_dropped (s : AudioSession)
    (audioBuffer transcript sk ek lang : List Nat)
    (hrec : s.isRecording = true)
    (hend : ((!(normalizeText ek).isEmpty) &&
      containsSub (normalizeText transcript) (normalizeText ek)) = true)
    (hnostart : ((!(normalizeText sk).isEmpty) &&
      containsSub (normalizeText transcript) (normalizeText sk)) = false) :
    (processAudioChunk (some s) audioBuffer transcript sk ek "false" lang).newBuf.chunks =
      s.chunks ∧
    (processAudioChunk (some s) audioBuffer transcript sk ek "false" lang).newBuf.isRecording =
      s.isRecording ∧
    (processAudioChunk (some s) audioBuffer transcript sk ek "false" lang).pipelineAudio =
      none ∧
    (processAudioChunk (some s) audioBuffer transcript sk ek "false" lang).errorCode =
      none ∧
    (processAudioChunk (some s) audioBuffer transcript sk ek "false" lang).keywordDetected =
      false ∧
    (processAudioChunk (some s) audioBuffer transcript sk ek "false" lang).spectatorForwarded =
      false := by
  unfold processAudioChunk
  rw [if_neg (by simp [hnostart]), if_neg (by simp)]
  simp only [hend, hrec]
  simp

/-- Witness for C10 at a concrete input. -/
theorem C10_witness :
    ((⟨[[7]], true, str "magic word", str "magic stop", str "en"⟩ :
        AudioSession).isRecording = true ∧
    ((!(normalizeText (str "magic stop")).isEmpty) &&
      containsSub (normalizeText (str "and now magic stop please"))
        (normalizeText (str "magic stop"))) = true ∧
    ((!(normalizeText (str "magic word")).isEmpty) &&
      containsSub (normalizeText (str "and now magic stop please"))
        (normalizeText (str "magic word"))) = false) ∧
    (processAudioChunk
        (some ⟨[[7]], true, str "magic word", str "magic stop", str "en"⟩)
        [4, 5] (str "and now magic stop please") (str "magic word")
        (str "magic stop") "false" (str "en")).newBuf.chunks = [[7]] ∧
    (processAudioChunk
        (some ⟨[[7]], true, str "magic word", str "magic stop", str "en"⟩)
        [4, 5] (str "and now magic stop please") (str "magic word")
        (str "magic stop") "false" (str "en")).keywordDetected = false :=
  ⟨⟨rfl, by decide, by decide⟩,
    (C10_end_inactive_dropped _ _ _ _ _ _ rfl (by decide) (by decide)).1,
    (C10_end_inactive_dropped _ _ _ _ _ _ rfl (by decide) (by decide)).2.2.2.2.1⟩

/-! Diarization Pipeline delivery step (`server.js` lines 450-538):
the computation of the `{summary, topic}` pair that is sent to the
spectator (`summary`) and the magician (`summarize_complete`). -/

/-- JavaScript `split(/\s+/)`: split on maximal whitespace runs, keeping the
empty pieces that arise at the ends. -/
def splitWSGo : Bool → List Nat → List Nat → List (List Nat)
  | _, [], acc => [acc.reverse]
  | inSep, c :: rest, acc =>
    if isWS c then
      if inSep then splitWSGo true rest acc
      else acc.reverse :: splitWSGo true rest []
    else splitWSGo false rest (c :: acc)

def splitWS (l : List Nat) : List (List Nat) := splitWSGo false l []

/-- JavaScript split with the one-space separator: split on every single space character. -/
def splitSpaceGo : List Nat → List Nat → List (List Nat)
  | [], acc => [acc.reverse]
  | c :: rest, acc =>
    if c == 32 then acc.reverse :: splitSpaceGo rest []
    else splitSpaceGo rest (c :: acc)

def splitSpace (l : List Nat) : List (List Nat) := splitSpaceGo l []

/-- The final topic fallback (`server.js` lines 500-502): the first two words
of the summary longer than two characters, joined by a space, or the literal
"speech topic" when there are none. -/
def topicFallback (summary : List Nat) : List Nat :=
  let summaryWords := (splitWS summary).filter (fun w => w.length > 2)
  let joined := List.intercalate [32] (summaryWords.take 2)
  if joined.isEmpty then str "speech topic" else joined

/-- The external services the delivery step calls, as opaque-to-the-model
functions: the Summarization Service, the AI Topic Service and the
Translation Service, plus whether the non-English translation try-block
completes without throwing. -/
structure PipelineEnv where
  summarize : List Nat → List Nat
  aiTopic : List Nat → List Nat
  translateTo : List Nat → List Nat → List Nat
  translationOk : Bool

/-- The summary/topic computation of `processDiarization`
(`server.js` lines 450-507), from the filtered text to the `{summary, topic}`
pair that is delivered.  `summaryTopicPair` mirrors the `summary`/`topic`
variables the source assigns from the services in both language branches;
`extractedTopic` and `extractedSummary` mirror the variables of the same
names, which the source initializes (lines 456-457) and never reassigns
before the final-fallback check (line 499) and the final assignment
(lines 506-507). -/
def processSummaryTopic (env : PipelineEnv) (filteredText language : List Nat) :
    List Nat × List Nat :=
  let extractedTopic : Option (List Nat) := none
  let extractedSummary := filteredText
  let summaryTopicPair : List Nat × List Nat :=
    if (str "en").isPrefixOf (language.map toLowerNat) then
      (env.summarize filteredText, env.aiTopic filteredText)
    else if env.translationOk then
      let translatedTranscript := env.translateTo (str "en") filteredText
      (env.translateTo language (env.summarize translatedTranscript),
        env.translateTo language (env.aiTopic translatedTranscript))
    else
      (filteredText, List.intercalate [32] ((splitSpace filteredText).take 4))
  let finalTopic : List Nat :=
    match extractedTopic with
    | none => topicFallback extractedSummary
    | some t =>
      if t = str "null" ∨ (trimWS t).isEmpty ∨ t = str "unknown topic" then
        topicFallback extractedSummary
      else t
  (extractedSummary, finalTopic)

theorem topicFallback_ne_nil (summary : List Nat) : topicFallback summary ≠ [] := by
  unfold topicFallback
  by_cases h : (List.intercalate [32]
      (((splitWS summary).filter (fun w => w.length > 2)).take 2)).isEmpty
  · rw [if_pos h]; decide
  · rw [if_neg h]
    simpa [List.isEmpty_iff] using h

/-- Claim C1 (code divergence): whatever the Summarization Service and the AI
Topic Service return, the delivered pair is the filtered text itself together
with the fallback topic derived from it — the `summary`/`topic` variables
computed from the services are discarded by the final assignment
`summary = extractedSummary; topic = extractedTopic`.  At the concrete
failing input, with the services returning "A talk about the weather." and
"paris weather", the delivery is ("the weather in paris", "the weather"). -/
theorem C1_delivery_ignores_services :
    (∀ (env : PipelineEnv) (ft lang : List Nat),
      processSummaryTopic env ft lang = (ft, topicFallback ft)) ∧
    processSummaryTopic
        ⟨fun _ => str "A talk about the weather.", fun _ => str "paris weather",
          fun _ t => t, true⟩
        (str "the weather in paris") (str "en") =
      (str "the weather in paris", str "the weather") ∧
    (str "the weather in paris", str "the weather") ≠
      (str "A talk about the weather.", str "paris weather") :=
  ⟨fun _ _ _ => rfl, by decide, by decide⟩

/-- Claim C2: for every run that reaches the delivery step, the delivered
topic equals the fallback derived from the delivered summary — the first two
words of the summary longer than two characters, or the placeholder
"speech topic" — and in particular it is never the empty string. -/
theorem C2_delivered_topic_never_empty :
    ∀ (env : PipelineEnv) (ft lang : List Nat),
      (processSummaryTopic env ft lang).2 =
        topicFallback (processSummaryTopic env ft lang).1 ∧
      (processSummaryTopic env ft lang).2 ≠ [] :=
  fun _ ft _ => ⟨rfl, topicFallback_ne_nil ft⟩

/-! Topic Extractor, weighted frequency strategy: `extractTopicByFrequency`
(topic extractor module, `server.js` bundle lines 1074-1116). -/

/-- The `STOP_WORDS` set of the topic extractor module. -/
def STOP_WORDS : List (List Nat) :=
  [str "i", str "me", str "my", str "myself", str "we", str "our", str "ours",
   str "ourselves", str "you", str "your", str "yours", str "yourself",
   str "yourselves", str "he", str "him", str "his", str "himself", str "she",
   str "her", str "hers", str "herself", str "it", str "its", str "itself",
   str "they", str "them", str "their", str "theirs", str "themselves",
   str "what", str "which", str "who", str "whom", str "this", str "that",
   str "these", str "those", str "am", str "is", str "are", str "was",
   str "were", str "be", str "been", str "being", str "have", str "has",
   str "had", str "having", str "do", str "does", str "did", str "doing",
   str "a", str "an", str "the", str "and", str "but", str "if", str "or",
   str "because", str "as", str "until", str "while", str "of", str "at",
   str "by", str "for", str "with", str "about", str "against", str "between",
   str "into", str "through", str "during", str "before", str "after",
   str "above", str "below", str "up", str "down", str "in", str "out",
   str "on", str "off", str "over", str "under", str "again", str "further",
   str "then", str "once", str "here", str "there", str "when", str "where",
   str "why", str "how", str "all", str "any", str "both", str "each",
   str "few", str "more", str "most", str "other", str "some", str "such",
   str "no", str "nor", str "not", str "only", str "own", str "same",
   str "so", str "than", str "too", str "very", str "s", str "t", str "can",
   str "will", str "just", str "don", str "should", str "now", str "yes"]

def isStopWord (w : List Nat) : Bool := STOP_WORDS.any (fun s => s == w)

/-- The regex `\w` class. -/
def isWordChar (c : Nat) : Bool :=
  (48 ≤ c && c ≤ 57) || (65 ≤ c && c ≤ 90) || (97 ≤ c && c ≤ 122) || c == 95

/-- Tokenization of `extractTopicByFrequency`: lower-case, replace every
non-word non-space character by a space, split on whitespace, keep words
longer than two characters that are not stop words. -/
def freqTokens (text : List Nat) : List (List Nat) :=
  (splitWS ((text.map toLowerNat).map
      (fun c => if isWordChar c || isWS c then c else 32))).filter
    (fun w => w.length > 2 && !isStopWord w)

/-- Add `k` to the count of `w` in an insertion-ordered association list,
mirroring the JavaScript object used as `wordCount`. -/
def bumpCount : List (List Nat × Nat) → List Nat → Nat → List (List Nat × Nat)
  | [], w, k => [(w, k)]
  | (x, c) :: rest, w, k =>
    if x == w then (x, c + k) :: rest else (x, c) :: bumpCount rest w k

/-- Match the part of a cue regex after its literal phrase:
`\s+(?:the\s+)?(\w+)`.  Returns the captured word and the number of
characters consumed; `none` if the regex does not match here.  The
optional `the` group backtracks to the capture when no word follows it,
as in JavaScript. -/
def matchTail (l : List Nat) : Option (List Nat × Nat) :=
  match l with
  | [] => none
  | c :: _ =>
    if isWS c then
      let afterWS := l.dropWhile (fun x => isWS x)
      let wsLen := l.length - afterWS.length
      let tryThe : Option (List Nat × Nat) :=
        if (str "the").isPrefixOf afterWS then
          let afterThe := afterWS.drop 3
          match afterThe with
          | d :: _ =>
            if isWS d then
              let afterWS2 := afterThe.dropWhile (fun x => isWS x)
              let w := afterWS2.takeWhile (fun x => isWordChar x)
              if w.isEmpty then none
              else some (w, wsLen + 3 + (afterThe.length - afterWS2.length) + w.length)
            else none
          | [] => none
        else none
      match tryThe with
      | some r => some r
      | none =>
        let w := afterWS.takeWhile (fun x => isWordChar x)
        if w.isEmpty then none else some (w, wsLen + w.length)
    else none

/-- Try the alternative literal phrases of a cue regex at this position, in
order, with backtracking into later alternatives when the tail fails. -/
def matchCueAt (alts : List (List Nat)) (l : List Nat) : Option (List Nat × Nat) :=
  match alts with
  | [] => none
  | a :: rest =>
    if a.isPrefixOf l then
      match matchTail (l.drop a.length) with
      | some (w, k) => some (w, a.length + k)
      | none => matchCueAt rest l
    else matchCueAt rest l

/-- JavaScript `matchAll` over the text: scan left to right, resuming after each match
(fuel-structured; fuel at least the text length always suffices since every
step consumes at least one character). -/
def scanCues (alts : List (List Nat)) : Nat → List Nat → List (List Nat)
  | 0, _ => []
  | _, [] => []
  | fuel + 1, c :: rest =>
    match matchCueAt alts (c :: rest) with
    | some (w, k) =>
      w :: scanCues alts fuel (if k = 0 then rest else (c :: rest).drop k)
    | none => scanCues alts fuel rest

/-- The five `topicIndicators` (alternative phrases, in the greedy order the
regex engine tries them, with their weights 10/8/6/5/7). -/
def cueIndicators : List (List (List Nat) × Nat) :=
  [([str "i am objectively talking about", str "i am talking about"], 10),
   ([str "this is about", str "it is about"], 8),
   ([str "i like", str "i love", str "i prefer"], 6),
   ([str "talking about", str "discussing", str "mentioning"], 5),
   ([str "so i like"], 7)]

/-- Apply the cue bonuses to the word counts: every capture longer than two
characters that is not a stop word gets the weight of the indicator added (the
source scans the original text case-insensitively and lower-cases the
capture; the model scans the lower-cased text, identical on ASCII). -/
def applyCues (text : List Nat) (m0 : List (List Nat × Nat)) :
    List (List Nat × Nat) :=
  cueIndicators.foldl
    (fun m ind =>
      (scanCues ind.1 text.length (text.map toLowerNat)).foldl
        (fun acc w =>
          if w.length > 2 && !isStopWord w then bumpCount acc w ind.2 else acc)
        m)
    m0

/-- The `wordCount` object after token counting and cue bonuses, as an
insertion-ordered association list. -/
def freqWordCounts (text : List Nat) : List (List Nat × Nat) :=
  applyCues text ((freqTokens text).foldl (fun m w => bumpCount m w 1) [])

/-- First entry with the maximal count.  The source sorts the filtered
entries descending with a stable sort and takes the head, which is exactly
the earliest entry of maximal count. -/
def firstMaxEntry : List (List Nat × Nat) → Option (List Nat × Nat)
  | [] => none
  | e :: rest =>
    match firstMaxEntry rest with
    | none => some e
    | some b => if b.2 > e.2 then some b else some e

/-- The strategy `extractTopicByFrequency`: the first highest-count word among the entries
whose (cue-boosted) count is at least 2, else none. -/
def extractTopicByFrequency (text : List Nat) : Option (List Nat) :=
  ((firstMaxEntry ((freqWordCounts text).filter (fun e => e.2 ≥ 2))).map
    Prod.fst)

theorem firstMaxEntry_eq_none {l : List (List Nat × Nat)}
    (h : firstMaxEntry l = none) : l = [] := by
  cases l with
  | nil => rfl
  | cons e rest =>
    exfalso
    unfold firstMaxEntry at h
    cases hr : firstMaxEntry rest with
    | none => rw [hr] at h; exact absurd h (by simp)
    | some b =>
      rw [hr] at h
      simp only [] at h
      by_cases hb : b.2 > e.2
      · rw [if_pos hb] at h; exact absurd h (by simp)
      · rw [if_neg hb] at h; exact absurd h (by simp)

theorem firstMaxEntry_spec {l : List (List Nat × Nat)} {e : List Nat × Nat}
    (h : firstMaxEntry l = some e) : e ∈ l ∧ ∀ x ∈ l, x.2 ≤ e.2 := by
  induction l generalizing e with
  | nil => exact absurd h (by simp [firstMaxEntry])
  | cons a rest ih =>
    unfold firstMaxEntry at h
    cases hr : firstMaxEntry rest with
    | none =>
      rw [hr] at h
      simp only [] at h
      obtain rfl : a = e := Option.some.inj h
      have : rest = [] := firstMaxEntry_eq_none hr
      subst this
      exact ⟨List.mem_cons_self _ _, by simp⟩
    | some b =>
      rw [hr] at h
      simp only [] at h
      by_cases hb : b.2 > a.2
      · rw [if_pos hb] at h
        obtain rfl : b = e := Option.some.inj h
        rcases ih hr with ⟨hmem, hmax⟩
        refine ⟨List.mem_cons_of_mem _ hmem, ?_⟩
        intro x hx
        rcases List.mem_cons.mp hx with rfl | hx
        · omega
        · exact hmax x hx
      · rw [if_neg hb] at h
        obtain rfl : a = e := Option.some.inj h
        rcases ih hr with ⟨hmem, hmax⟩
        refine ⟨List.mem_cons_self _ _, ?_⟩
        intro x hx
        rcases List.mem_cons.mp hx with rfl | hx
        · exact le_refl _
        · exact le_trans (hmax x hx) (by omega)

/-- Claim C9, amended: the weighted frequency strategy returns the first
highest-scoring word whose cue-boosted score (raw token occurrences plus
cue bonuses) is at least 2, and none exactly when no boosted word score
reaches 2.  The threshold is applied to the boosted score, not to the raw
occurrence count. -/
theorem C9_freq_boosted_threshold (text : List Nat) :
    (extractTopicByFrequency text = none →
      ∀ e ∈ freqWordCounts text, e.2 < 2) ∧
    (∀ w, extractTopicByFrequency text = some w →
      ∃ c, (w, c) ∈ freqWordCounts text ∧ 2 ≤ c ∧
        ∀ e ∈ freqWordCounts text, e.2 ≤ c) := by
  constructor
  · intro h e he
    unfold extractTopicByFrequency at h
    rcases Option.map_eq_none'.mp h with hnone
    have hempty := firstMaxEntry_eq_none hnone
    by_contra hge
    have h2 : e.2 ≥ 2 := by omega
    have : e ∈ (freqWordCounts text).filter (fun e => e.2 ≥ 2) :=
      List.mem_filter.mpr ⟨he, by simpa using h2⟩
    rw [hempty] at this
    exact absurd this (by simp)
  · intro w h
    unfold extractTopicByFrequency at h
    rcases Option.map_eq_some'.mp h with ⟨e, he, rfl⟩
    rcases firstMaxEntry_spec he with ⟨hmem, hmax⟩
    rcases List.mem_filter.mp hmem with ⟨hmem2, h2⟩
    refine ⟨e.2, by simpa using hmem2, by simpa using h2, ?_⟩
    intro x hx
    by_cases hxge : x.2 ≥ 2
    · exact hmax x (List.mem_filter.mpr ⟨hx, by simpa using hxge⟩)
    · have : (2 : Nat) ≤ e.2 := by simpa using h2
      omega

/-- Witness for the amended C9 at a concrete input. -/
theorem C9_witness :
    extractTopicByFrequency (str "cats cats") = some (str "cats") ∧
    ∃ c, (str "cats", c) ∈ freqWordCounts (str "cats cats") ∧ 2 ≤ c ∧
      ∀ e ∈ freqWordCounts (str "cats cats"), e.2 ≤ c :=
  ⟨by decide, (C9_freq_boosted_threshold (str "cats cats")).2 _ (by decide)⟩

/-- Counterexample to C9 as stated: in
"i am talking about elephants today" no word occurs twice (every token count
is at most 1), yet the strategy returns "elephants", whose single occurrence
is boosted past the threshold by the cue bonuses. -/
theorem C9_counterexample :
    extractTopicByFrequency (str "i am talking about elephants today") =
      some (str "elephants") ∧
    (freqTokens (str "i am talking about elephants today")).count
      (str "elephants") = 1 ∧
    ((freqTokens (str "i am talking about elephants today")).all
      (fun w => (freqTokens (str "i am talking about elephants today")).count w ≤ 1)) =
      true :=
  ⟨by decide, by decide, by decide⟩

end SpeechServer
